import Mathlib

/-!
Shallow embedding of `src/buffer/muduo_buffer.h` (class `muduo::Buffer`).

The storage `std::vector<char> buffer_` is modelled as a `List Nat` of byte
values; the two cursors `readerIndex_` and `writerIndex_` are `Nat` (the C++
`size_t` arithmetic in this class never wraps under the asserted
preconditions, so `Nat` with truncated subtraction is faithful wherever a
subtraction occurs the code guards it by an assertion or an `if`).

The source file is a hand transcription and carries a few mechanical slips
that make it ill-formed C++ while leaving the intent unambiguous; each is
noted at the definition it concerns:
  - `retrieve` line 116: missing `;` after the assert;
  - `makeSpace` line 258: a full-width comma in the `std::copy` call;
  - `prependInt32`/`prependInt16`: the declaration of the local temporary
    (`int32_t be32 = x;` / `int16_t be16 = x;`) was dropped;
  - `shrink` line 109: the second argument of `other.append(peek(),)` was
    dropped.

Fixed-width integers are represented by their `N`-bit two's-complement bit
pattern as a `Nat < 2^N`; `memcpy` of an integer to/from the byte storage is
modelled as the host's byte serialisation, fixed here as little-endian
(the round-trip properties proved below are independent of that choice, and
the code applies no byte-order conversion anywhere).
-/

/-- Overwrite of `d.length` bytes of `l` starting at offset `i`: the model of
`std::copy(d, d + len, begin() + i)` into the storage vector. -/
def writeAt (l : List Nat) (i : Nat) (d : List Nat) : List Nat :=
  l.take i ++ d ++ l.drop (i + d.length)

/-- Model of `std::vector::resize(n)`: truncate or zero-extend to length `n`. -/
def resize (l : List Nat) (n : Nat) : List Nat :=
  if n ≤ l.length then l.take n else l ++ List.replicate (n - l.length) 0

/-- Little-endian byte serialisation of the low `w` bytes of `x`: the model of
`memcpy` from a `w`-byte integer object into the storage. -/
def toBytesLE : Nat → Nat → List Nat
  | 0, _ => []
  | w + 1, x => x % 256 :: toBytesLE w (x / 256)

/-- Little-endian byte deserialisation: the model of `memcpy` from the storage
into an integer object. -/
def fromBytesLE : List Nat → Nat
  | [] => 0
  | a :: rest => a + 256 * fromBytesLE rest

namespace muduo

/-- The state of `muduo::Buffer`: the storage vector and the two cursors. -/
structure Buffer where
  buffer_ : List Nat
  readerIndex_ : Nat
  writerIndex_ : Nat
  deriving DecidableEq

namespace Buffer

/-- Source line 19: `static const size_t kCheapPrepend = 8;`. -/
def kCheapPrepend : Nat := 8

/-- Source line 20: `static const size_t kInitialSize = 1024;`. -/
def kInitialSize : Nat := 1024

/-- The constructor `Buffer(size_t initialSize)`: storage of
`kCheapPrepend + initialSize` zero bytes (`std::vector<char>` value-initialises),
both cursors at `kCheapPrepend`. -/
def ofSize (initialSize : Nat) : Buffer :=
  ⟨List.replicate (kCheapPrepend + initialSize) 0, kCheapPrepend, kCheapPrepend⟩

/-- Source: `writerIndex_ - readerIndex_`. -/
def readableBytes (b : Buffer) : Nat := b.writerIndex_ - b.readerIndex_

/-- Source: `buffer_.size() - writerIndex_`. -/
def writableBytes (b : Buffer) : Nat := b.buffer_.length - b.writerIndex_

/-- Source: `readerIndex_`. -/
def prependableBytes (b : Buffer) : Nat := b.readerIndex_

/-- The `len` bytes starting at `peek() = begin() + readerIndex_`. -/
def peekBytes (b : Buffer) (len : Nat) : List Nat :=
  (b.buffer_.drop b.readerIndex_).take len

/-- The readable region `storage[readerIndex_, writerIndex_)` as a byte list. -/
def readableContent (b : Buffer) : List Nat := b.peekBytes b.readableBytes

/-- Source `peekInt8`: the byte at `peek()`. -/
def peekInt8 (b : Buffer) : Nat := fromBytesLE (b.peekBytes 1)

/-- Source `peekInt16`: `memcpy` of 2 bytes from `peek()` into an `int16_t`. -/
def peekInt16 (b : Buffer) : Nat := fromBytesLE (b.peekBytes 2)

/-- Source `peekInt32`: `memcpy` of 4 bytes from `peek()` into an `int32_t`. -/
def peekInt32 (b : Buffer) : Nat := fromBytesLE (b.peekBytes 4)

/-- Modelled from the spec: the class ships no `peekInt64`, but the spec's
integer round-trip property quantifies over 64-bit values as well; this
follows the `peekInt32` pattern (`memcpy` of 8 bytes from `peek()`). -/
def peekInt64 (b : Buffer) : Nat := fromBytesLE (b.peekBytes 8)

/-- Source `prepend(data, len)`: `readerIndex_ -= len` then copy `data` into
the freed space at the new `readerIndex_`. Asserted precondition:
`len <= prependableBytes()`. -/
def prepend (b : Buffer) (data : List Nat) : Buffer :=
  ⟨writeAt b.buffer_ (b.readerIndex_ - data.length) data,
   b.readerIndex_ - data.length, b.writerIndex_⟩

/-- Source `prependInt8`: `prepend(&x, sizeof x)`. -/
def prependInt8 (b : Buffer) (x : Nat) : Buffer := b.prepend (toBytesLE 1 x)

/-- Source `prependInt16`: `prepend(&be16, sizeof be16)` where the declaration
`int16_t be16 = x;` was dropped in transcription; per the sibling
`prependInt32` doc comment (host endian) the temporary is the host-order
image of `x`. -/
def prependInt16 (b : Buffer) (x : Nat) : Buffer := b.prepend (toBytesLE 2 x)

/-- Source `prependInt32`: `prepend(&be32, sizeof be32)` where the declaration
`int32_t be32 = x;` was dropped in transcription; its own doc comment says
`Prepend int32_t using host endian`, so the temporary is the host-order
image of `x`. -/
def prependInt32 (b : Buffer) (x : Nat) : Buffer := b.prepend (toBytesLE 4 x)

/-- Source `retrieveAll`: `readerIndex_ = writerIndex_ = kCheapPrepend`. -/
def retrieveAll (b : Buffer) : Buffer := ⟨b.buffer_, kCheapPrepend, kCheapPrepend⟩

/-- Source `retrieve(len)`: advance the reader cursor, or reset via
`retrieveAll` when `len` is not strictly below `readableBytes()`. Asserted
precondition: `len <= readableBytes()`. -/
def retrieve (b : Buffer) (len : Nat) : Buffer :=
  if len < b.readableBytes then ⟨b.buffer_, b.readerIndex_ + len, b.writerIndex_⟩
  else b.retrieveAll

/-- Source `retrieveUntil(end)`: `retrieve(end - peek())`, with the pointer
`end` modelled as a storage offset. Asserted preconditions:
`peek() <= end` and `end <= beginWrite()`. -/
def retrieveUntil (b : Buffer) (e : Nat) : Buffer := b.retrieve (e - b.readerIndex_)

/-- Source `retrieveInt64`: `retrieve(sizeof(int64_t))`. -/
def retrieveInt64 (b : Buffer) : Buffer := b.retrieve 8

/-- Source `retrieveInt32`: `retrieve(sizeof(int32_t))`. -/
def retrieveInt32 (b : Buffer) : Buffer := b.retrieve 4

/-- Source `retrieveInt16`: `retrieve(sizeof(int16_t))`. -/
def retrieveInt16 (b : Buffer) : Buffer := b.retrieve 2

/-- Source `retrieveInt8`: `retrieve(sizeof(int8_t))`. -/
def retrieveInt8 (b : Buffer) : Buffer := b.retrieve 1

/-- Source `retrieveAsString(len)`: the string `(peek(), len)` paired with the
state after `retrieve(len)`. Asserted precondition: `len <= readableBytes()`. -/
def retrieveAsString (b : Buffer) (len : Nat) : List Nat × Buffer :=
  (b.peekBytes len, b.retrieve len)

/-- Source `retrieveAllAsString`: `retrieveAsString(readableBytes())`. -/
def retrieveAllAsString (b : Buffer) : List Nat × Buffer :=
  b.retrieveAsString b.readableBytes

/-- Source `makeSpace(len)` (private; reached only from `ensureWritableBytes`
on shortfall). First branch: `buffer_.resize(writerIndex_ + len)`. Second
branch: copy `[readerIndex_, writerIndex_)` down to `kCheapPrepend` (the
source's `std::copy` — its full-width comma typo restored to a comma), then
`readerIndex_ = kCheapPrepend`, `writerIndex_ = readerIndex_ + readable`. -/
def makeSpace (b : Buffer) (len : Nat) : Buffer :=
  if b.writableBytes + b.prependableBytes < len + kCheapPrepend then
    ⟨resize b.buffer_ (b.writerIndex_ + len), b.readerIndex_, b.writerIndex_⟩
  else
    ⟨writeAt b.buffer_ kCheapPrepend (b.peekBytes b.readableBytes),
     kCheapPrepend, kCheapPrepend + b.readableBytes⟩

/-- Source `ensureWritableBytes(len)`: `makeSpace(len)` iff
`writableBytes() < len`. -/
def ensureWritableBytes (b : Buffer) (len : Nat) : Buffer :=
  if b.writableBytes < len then b.makeSpace len else b

/-- Source `hasWritten(len)`: `writerIndex_ += len`. Asserted precondition:
`len <= writableBytes()`. -/
def hasWritten (b : Buffer) (len : Nat) : Buffer :=
  ⟨b.buffer_, b.readerIndex_, b.writerIndex_ + len⟩

/-- Source `unwrite(len)`: `writerIndex_ -= len`. Asserted precondition:
`len <= readableBytes()`. -/
def unwrite (b : Buffer) (len : Nat) : Buffer :=
  ⟨b.buffer_, b.readerIndex_, b.writerIndex_ - len⟩

/-- Source `append(data, len)`: `ensureWritableBytes(len)`, copy at
`beginWrite()`, then `hasWritten(len)`. -/
def append (b : Buffer) (data : List Nat) : Buffer :=
  let b1 := b.ensureWritableBytes data.length
  hasWritten ⟨writeAt b1.buffer_ b1.writerIndex_ data, b1.readerIndex_, b1.writerIndex_⟩
    data.length

/-- Source `appendInt64`: `append(&x, sizeof x)` (no byte-order conversion in
the code). -/
def appendInt64 (b : Buffer) (x : Nat) : Buffer := b.append (toBytesLE 8 x)

/-- Source `appendInt32`: `append(&x, sizeof x)`. -/
def appendInt32 (b : Buffer) (x : Nat) : Buffer := b.append (toBytesLE 4 x)

/-- Source `appendInt16`: `append(&x, sizeof x)`. -/
def appendInt16 (b : Buffer) (x : Nat) : Buffer := b.append (toBytesLE 2 x)

/-- Source `appendInt8`: `append(&x, sizeof x)`. -/
def appendInt8 (b : Buffer) (x : Nat) : Buffer := b.append (toBytesLE 1 x)

/-- Source `swap(rhs)`: exchange storage and both cursors; the pair is
(state of `this` after, state of `rhs` after). -/
def swap (b rhs : Buffer) : Buffer × Buffer := (rhs, b)

/-- Source `shrink(reserve)`: build `Buffer other` (default size), call
`other.ensureWritableBytes(readableBytes() + reserve)`, then
`other.append(peek(), ...)` — the dropped second argument is the amount
copied; modelled from the spec (`copying the current readable content into
it`) as `readableBytes()` — and finally `swap(other)`, so the state of
`this` afterwards is `other`. -/
def shrink (b : Buffer) (reserve : Nat) : Buffer :=
  ((ofSize kInitialSize).ensureWritableBytes (b.readableBytes + reserve)).append
    (b.peekBytes b.readableBytes)

/-- Invariant I1 of the spec: `0 ≤ readerIndex ≤ writerIndex ≤ storage.length`
(the lower bound is implicit in `Nat`). -/
def I1 (b : Buffer) : Prop :=
  b.readerIndex_ ≤ b.writerIndex_ ∧ b.writerIndex_ ≤ b.buffer_.length

instance (b : Buffer) : Decidable (I1 b) := by unfold I1; infer_instance

/-- The invariant actually maintained by the class: I1 together with
`kCheapPrepend ≤ storage.length`, which the constructor establishes and every
operation preserves (`retrieveAll` writes the cursor `kCheapPrepend`, so I1
alone is not inductive). -/
def StrongInv (b : Buffer) : Prop := kCheapPrepend ≤ b.buffer_.length ∧ I1 b

instance (b : Buffer) : Decidable (StrongInv b) := by unfold StrongInv; infer_instance

end Buffer

/-- One public mutating call of the class, with its argument. Pointer-valued
arguments are storage offsets; the `swap` argument is the other buffer. -/
inductive Op where
  | append (data : List Nat)
  | appendInt8 (x : Nat)
  | appendInt16 (x : Nat)
  | appendInt32 (x : Nat)
  | appendInt64 (x : Nat)
  | prepend (data : List Nat)
  | prependInt8 (x : Nat)
  | prependInt16 (x : Nat)
  | prependInt32 (x : Nat)
  | retrieve (len : Nat)
  | retrieveInt8
  | retrieveInt16
  | retrieveInt32
  | retrieveInt64
  | retrieveAll
  | retrieveAsString (len : Nat)
  | retrieveAllAsString
  | retrieveUntil (e : Nat)
  | hasWritten (len : Nat)
  | unwrite (len : Nat)
  | ensureWritableBytes (len : Nat)
  | makeSpace (len : Nat)
  | shrink (reserve : Nat)
  | swap (rhs : Buffer)

/-- The stated precondition of each call: exactly the `assert`s the source
places on the operation (directly or in the operation it delegates to).
`makeSpace` is private and reached only on shortfall, so that is its calling
condition; `swap`'s argument must itself be a buffer the class built. -/
def validOp (b : Buffer) : Op → Bool
  | .append _ => true
  | .appendInt8 _ => true
  | .appendInt16 _ => true
  | .appendInt32 _ => true
  | .appendInt64 _ => true
  | .prepend d => decide (d.length ≤ b.prependableBytes)
  | .prependInt8 _ => decide (1 ≤ b.prependableBytes)
  | .prependInt16 _ => decide (2 ≤ b.prependableBytes)
  | .prependInt32 _ => decide (4 ≤ b.prependableBytes)
  | .retrieve len => decide (len ≤ b.readableBytes)
  | .retrieveInt8 => decide (1 ≤ b.readableBytes)
  | .retrieveInt16 => decide (2 ≤ b.readableBytes)
  | .retrieveInt32 => decide (4 ≤ b.readableBytes)
  | .retrieveInt64 => decide (8 ≤ b.readableBytes)
  | .retrieveAll => true
  | .retrieveAsString len => decide (len ≤ b.readableBytes)
  | .retrieveAllAsString => true
  | .retrieveUntil e => decide (b.readerIndex_ ≤ e ∧ e ≤ b.writerIndex_)
  | .hasWritten len => decide (len ≤ b.writableBytes)
  | .unwrite len => decide (len ≤ b.readableBytes)
  | .ensureWritableBytes _ => true
  | .makeSpace len => decide (b.writableBytes < len)
  | .shrink _ => true
  | .swap rhs => decide (Buffer.StrongInv rhs)

/-- The state of `this` after the call (values returned by the read-out
operations are dropped; `swap` leaves `this` holding the other buffer). -/
def applyOp (b : Buffer) : Op → Buffer
  | .append d => b.append d
  | .appendInt8 x => b.appendInt8 x
  | .appendInt16 x => b.appendInt16 x
  | .appendInt32 x => b.appendInt32 x
  | .appendInt64 x => b.appendInt64 x
  | .prepend d => b.prepend d
  | .prependInt8 x => b.prependInt8 x
  | .prependInt16 x => b.prependInt16 x
  | .prependInt32 x => b.prependInt32 x
  | .retrieve len => b.retrieve len
  | .retrieveInt8 => b.retrieveInt8
  | .retrieveInt16 => b.retrieveInt16
  | .retrieveInt32 => b.retrieveInt32
  | .retrieveInt64 => b.retrieveInt64
  | .retrieveAll => b.retrieveAll
  | .retrieveAsString len => (b.retrieveAsString len).2
  | .retrieveAllAsString => b.retrieveAllAsString.2
  | .retrieveUntil e => b.retrieveUntil e
  | .hasWritten len => b.hasWritten len
  | .unwrite len => b.unwrite len
  | .ensureWritableBytes len => b.ensureWritableBytes len
  | .makeSpace len => b.makeSpace len
  | .shrink reserve => b.shrink reserve
  | .swap rhs => rhs

/-- A call sequence is valid from `b` when each call meets its stated
precondition in the state produced by the calls before it. -/
def validSeq : Buffer → List Op → Bool
  | _, [] => true
  | b, op :: rest => validOp b op && validSeq (applyOp b op) rest

/-- The state after running a call sequence. -/
def run (b : Buffer) (ops : List Op) : Buffer := ops.foldl applyOp b

/-- A state is reachable when some valid call sequence starting from a freshly
constructed buffer (of any initial size) produces it. -/
def Reachable (b : Buffer) : Prop :=
  ∃ sz ops, validSeq (Buffer.ofSize sz) ops = true ∧ run (Buffer.ofSize sz) ops = b

end muduo

/-! Helper lemmas about the storage primitives. -/

theorem length_writeAt (l d : List Nat) (i : Nat) (h : i + d.length ≤ l.length) :
    (writeAt l i d).length = l.length := by
  unfold writeAt
  rw [List.length_append, List.length_append, List.length_take, List.length_drop]
  omega

theorem getElem?_writeAt (l d : List Nat) (i j : Nat) (h : i + d.length ≤ l.length) :
    (writeAt l i d)[j]? =
      if j < i then l[j]? else if j < i + d.length then d[j - i]? else l[j]? := by
  have hlen : (l.take i).length = i := by rw [List.length_take]; omega
  simp only [writeAt, List.getElem?_append, List.length_append, hlen,
    List.getElem?_take, List.getElem?_drop]
  split_ifs <;> first | rfl | omega | (congr 1; omega)

theorem take_drop_writeAt (l d : List Nat) (i : Nat) (h : i + d.length ≤ l.length) :
    ((writeAt l i d).drop i).take d.length = d := by
  apply List.ext_getElem?
  intro j
  simp only [List.getElem?_take, List.getElem?_drop, getElem?_writeAt _ _ _ _ h]
  split_ifs <;>
    first
      | omega
      | (congr 1; omega)
      | exact (List.getElem?_eq_none (by omega)).symm

theorem take_drop_writeAt_after (l d : List Nat) (i r : Nat) (hr : r ≤ i)
    (h : i + d.length ≤ l.length) :
    ((writeAt l i d).drop r).take (i - r + d.length) = (l.drop r).take (i - r) ++ d := by
  have hlen : ((l.drop r).take (i - r)).length = i - r := by
    rw [List.length_take, List.length_drop]; omega
  apply List.ext_getElem?
  intro j
  simp only [List.getElem?_take, List.getElem?_drop, List.getElem?_append, hlen,
    getElem?_writeAt _ _ _ _ h]
  split_ifs <;>
    first
      | rfl
      | omega
      | (congr 1; omega)
      | exact (List.getElem?_eq_none (by omega)).symm

theorem take_drop_writeAt_before (l d : List Nat) (i m : Nat) (h : i + d.length ≤ l.length) :
    ((writeAt l i d).drop i).take (d.length + m) = d ++ (l.drop (i + d.length)).take m := by
  apply List.ext_getElem?
  intro j
  simp only [List.getElem?_take, List.getElem?_drop, List.getElem?_append,
    getElem?_writeAt _ _ _ _ h]
  split_ifs <;>
    first
      | rfl
      | omega
      | (congr 1; omega)
      | exact (List.getElem?_eq_none (by omega)).symm

theorem length_resize (l : List Nat) (n : Nat) : (resize l n).length = n := by
  unfold resize
  split_ifs with h
  · rw [List.length_take]; omega
  · rw [List.length_append, List.length_replicate]; omega

theorem getElem?_resize_of_grow (l : List Nat) (n j : Nat) (h : l.length ≤ n)
    (hj : j < l.length) : (resize l n)[j]? = l[j]? := by
  unfold resize
  split_ifs with h1
  · have : n = l.length := by omega
    rw [this, List.take_length]
  · rw [List.getElem?_append, if_pos hj]

theorem length_toBytesLE (w x : Nat) : (toBytesLE w x).length = w := by
  induction w generalizing x with
  | zero => rfl
  | succ w ih => simp [toBytesLE, ih]

theorem fromBytesLE_toBytesLE (w x : Nat) : fromBytesLE (toBytesLE w x) = x % 256 ^ w := by
  induction w generalizing x with
  | zero => simp [toBytesLE, fromBytesLE, Nat.mod_one]
  | succ w ih =>
    simp only [toBytesLE, fromBytesLE, ih]
    rw [pow_succ, mul_comm (256 ^ w) 256, Nat.mod_mul]

namespace muduo

namespace Buffer

theorem length_peekBytes (b : Buffer) (len : Nat)
    (h : b.readerIndex_ + len ≤ b.buffer_.length) : (b.peekBytes len).length = len := by
  unfold peekBytes
  rw [List.length_take, List.length_drop]
  omega

theorem length_readableContent (b : Buffer) (h : I1 b) :
    (b.readableContent).length = b.readableBytes := by
  obtain ⟨h1, h2⟩ := h
  apply length_peekBytes
  unfold readableBytes
  omega

/-- Behaviour of `makeSpace` under its calling condition (shortfall): the
strengthened invariant is preserved, at least `len` bytes become writable, and
the readable content — the byte sequence between the cursors — is unchanged. -/
theorem makeSpace_spec (b : Buffer) (len : Nat) (h : StrongInv b)
    (hs : b.writableBytes < len) :
    StrongInv (b.makeSpace len) ∧ len ≤ (b.makeSpace len).writableBytes ∧
      (b.makeSpace len).readableBytes = b.readableBytes ∧
      (b.makeSpace len).readableContent = b.readableContent := by
  obtain ⟨h8, hrw, hwl⟩ := h
  replace h8 : 8 ≤ b.buffer_.length := h8
  simp only [writableBytes] at hs
  unfold makeSpace
  split_ifs with hcond
  · -- pure-grow branch: resize to writerIndex_ + len
    simp only [writableBytes, prependableBytes, kCheapPrepend] at hcond
    have hlen : (resize b.buffer_ (b.writerIndex_ + len)).length = b.writerIndex_ + len :=
      length_resize _ _
    simp only [StrongInv, I1, readableBytes, writableBytes, readableContent, peekBytes,
      kCheapPrepend, hlen]
    refine ⟨⟨by omega, hrw, by omega⟩, by omega, trivial, ?_⟩
    apply List.ext_getElem?
    intro j
    simp only [List.getElem?_take, List.getElem?_drop]
    split_ifs with hj
    · exact getElem?_resize_of_grow _ _ _ (by omega) (by omega)
    · rfl
  · -- compaction branch: copy the readable region down to kCheapPrepend
    simp only [writableBytes, prependableBytes, kCheapPrepend] at hcond
    have hClen : (b.peekBytes b.readableBytes).length = b.readableBytes :=
      length_peekBytes _ _ (by simp only [readableBytes]; omega)
    have hfit : kCheapPrepend + (b.peekBytes b.readableBytes).length ≤ b.buffer_.length := by
      rw [hClen]; simp only [readableBytes, kCheapPrepend]; omega
    have hwlen : (writeAt b.buffer_ kCheapPrepend (b.peekBytes b.readableBytes)).length
        = b.buffer_.length := length_writeAt _ _ _ hfit
    have hslice := take_drop_writeAt b.buffer_ (b.peekBytes b.readableBytes) kCheapPrepend hfit
    rw [hClen] at hslice
    simp only [readableBytes, peekBytes, kCheapPrepend] at hwlen hslice
    simp only [StrongInv, I1, readableBytes, writableBytes, readableContent, peekBytes,
      kCheapPrepend, hwlen]
    refine ⟨⟨by omega, by omega, by omega⟩, by omega, by omega, ?_⟩
    rw [show 8 + (b.writerIndex_ - b.readerIndex_) - 8 = b.writerIndex_ - b.readerIndex_
      from by omega]
    exact hslice

/-- Behaviour of `ensureWritableBytes`: the assertion `writableBytes() >= len`
on exit holds, the invariant is preserved, and the readable content is
untouched. -/
theorem ensure_spec (b : Buffer) (len : Nat) (h : StrongInv b) :
    StrongInv (b.ensureWritableBytes len) ∧ len ≤ (b.ensureWritableBytes len).writableBytes ∧
      (b.ensureWritableBytes len).readableBytes = b.readableBytes ∧
      (b.ensureWritableBytes len).readableContent = b.readableContent := by
  unfold ensureWritableBytes
  split_ifs with hs
  · exact makeSpace_spec b len h hs
  · exact ⟨h, by omega, rfl, rfl⟩

/-- Behaviour of `append`: the invariant is preserved, the readable length
grows by `data.length`, the appended bytes sit after the previous content, and
the storage length is the one `ensureWritableBytes` produced. -/
theorem append_spec (b : Buffer) (d : List Nat) (h : StrongInv b) :
    StrongInv (b.append d) ∧ (b.append d).readableBytes = b.readableBytes + d.length ∧
      (b.append d).readableContent = b.readableContent ++ d ∧
      (b.append d).buffer_.length = (b.ensureWritableBytes d.length).buffer_.length := by
  obtain ⟨hI, hwr, hrd, hct⟩ := ensure_spec b d.length h
  have hres : b.append d =
      ⟨writeAt (b.ensureWritableBytes d.length).buffer_
          (b.ensureWritableBytes d.length).writerIndex_ d,
        (b.ensureWritableBytes d.length).readerIndex_,
        (b.ensureWritableBytes d.length).writerIndex_ + d.length⟩ := rfl
  set b1 := b.ensureWritableBytes d.length with hb1
  obtain ⟨h8, hrw, hwl⟩ := hI
  replace h8 : 8 ≤ b1.buffer_.length := h8
  simp only [writableBytes] at hwr
  have hfit : b1.writerIndex_ + d.length ≤ b1.buffer_.length := by omega
  have hwlen := length_writeAt b1.buffer_ d b1.writerIndex_ hfit
  have hslice := take_drop_writeAt_after b1.buffer_ d b1.writerIndex_ b1.readerIndex_ hrw hfit
  simp only [readableContent, readableBytes, peekBytes] at hct
  rw [hres]
  refine ⟨?_, ?_, ?_, ?_⟩
  · simp only [StrongInv, I1, kCheapPrepend, hwlen]
    omega
  · simp only [readableBytes] at hrd ⊢
    omega
  · simp only [readableContent, readableBytes, peekBytes]
    rw [show b1.writerIndex_ + d.length - b1.readerIndex_
        = b1.writerIndex_ - b1.readerIndex_ + d.length from by omega, hslice, hct]
  · exact hwlen

/-- Behaviour of `prepend` under its asserted precondition: the reader cursor
moves back by `data.length`, the writer cursor and the storage length are
unchanged, the new readable content is the data followed by the old content,
and no byte at or beyond the old reader cursor is modified. -/
theorem prepend_spec (b : Buffer) (d : List Nat) (h : I1 b)
    (hp : d.length ≤ b.prependableBytes) :
    (b.prepend d).readerIndex_ = b.readerIndex_ - d.length ∧
      (b.prepend d).writerIndex_ = b.writerIndex_ ∧
      (b.prepend d).buffer_.length = b.buffer_.length ∧
      (b.prepend d).readableBytes = b.readableBytes + d.length ∧
      (b.prepend d).readableContent = d ++ b.readableContent ∧
      ∀ j, b.readerIndex_ ≤ j → (b.prepend d).buffer_[j]? = b.buffer_[j]? := by
  obtain ⟨hrw, hwl⟩ := h
  simp only [prependableBytes] at hp
  have hfit : b.readerIndex_ - d.length + d.length ≤ b.buffer_.length := by omega
  have hwlen := length_writeAt b.buffer_ d (b.readerIndex_ - d.length) hfit
  have hslice := take_drop_writeAt_before b.buffer_ d (b.readerIndex_ - d.length)
    (b.writerIndex_ - b.readerIndex_) hfit
  rw [show b.readerIndex_ - d.length + d.length = b.readerIndex_ from by omega] at hslice
  unfold prepend
  simp only [readableBytes, readableContent, peekBytes, hwlen]
  refine ⟨by trivial, by trivial, by trivial, by omega, ?_, ?_⟩
  · rw [show b.writerIndex_ - (b.readerIndex_ - d.length)
        = d.length + (b.writerIndex_ - b.readerIndex_) from by omega, hslice]
  · intro j hj
    rw [getElem?_writeAt _ _ _ _ hfit]
    rw [if_neg (by omega), if_neg (by omega)]

/-- The freshly constructed buffer satisfies the strengthened invariant. -/
theorem ofSize_strongInv (sz : Nat) : StrongInv (ofSize sz) := by
  simp only [StrongInv, I1, ofSize, List.length_replicate, kCheapPrepend]
  omega

/-- A fresh buffer has no readable content. -/
theorem ofSize_readableContent (sz : Nat) : (ofSize sz).readableContent = [] := by
  simp [readableContent, readableBytes, ofSize, peekBytes]

/-- When the writable space already suffices, `ensureWritableBytes` is the
identity. -/
theorem ensure_noop (b : Buffer) (len : Nat) (h : ¬ b.writableBytes < len) :
    b.ensureWritableBytes len = b := by
  unfold ensureWritableBytes
  rw [if_neg h]

/-- Storage length produced by `ensureWritableBytes` on a fresh buffer of any
initial size: unchanged when the request fits the initial capacity, otherwise
grown to exactly `kCheapPrepend + n` (a fresh buffer always takes the
pure-grow branch since its prepend region is exactly `kCheapPrepend`). -/
theorem ensure_ofSize_length (sz n : Nat) :
    ((ofSize sz).ensureWritableBytes n).buffer_.length =
      if n ≤ sz then kCheapPrepend + sz else kCheapPrepend + n := by
  have hw : (ofSize sz).writableBytes = sz := by
    simp only [writableBytes, ofSize, List.length_replicate, kCheapPrepend]
    omega
  have hp : (ofSize sz).prependableBytes = kCheapPrepend := rfl
  unfold ensureWritableBytes makeSpace
  simp only [hw, hp]
  by_cases hns : n ≤ sz
  · -- no shortfall: untouched
    rw [if_neg (show ¬ sz < n from by omega), if_pos hns]
    simp only [ofSize, List.length_replicate]
  · -- shortfall; a fresh buffer always lacks slack, so it is a pure grow
    rw [if_pos (show sz < n from by omega),
      if_pos (show sz + kCheapPrepend < n + kCheapPrepend from by omega), if_neg hns]
    simp only [length_resize, ofSize, kCheapPrepend]

/-- Behaviour of `shrink`: equivalent readable content, and the storage is
the default allocation when the request fits `kInitialSize`, else exactly
`kCheapPrepend + readableBytes + reserve`. -/
theorem shrink_spec (b : Buffer) (reserve : Nat) (h : I1 b) :
    StrongInv (b.shrink reserve) ∧
      (b.shrink reserve).readableBytes = b.readableBytes ∧
      (b.shrink reserve).readableContent = b.readableContent ∧
      (b.shrink reserve).buffer_.length =
        (if b.readableBytes + reserve ≤ kInitialSize then kCheapPrepend + kInitialSize
         else kCheapPrepend + (b.readableBytes + reserve)) := by
  have hC : (b.peekBytes b.readableBytes).length = b.readableBytes :=
    length_peekBytes _ _ (by obtain ⟨h1, h2⟩ := h; simp only [readableBytes]; omega)
  obtain ⟨hI, hwr, hrd, hct⟩ :=
    ensure_spec (ofSize kInitialSize) (b.readableBytes + reserve) (ofSize_strongInv _)
  obtain ⟨hA1, hA2, hA3, hA4⟩ :=
    append_spec ((ofSize kInitialSize).ensureWritableBytes (b.readableBytes + reserve))
      (b.peekBytes b.readableBytes) hI
  have h0 : (ofSize kInitialSize).readableBytes = 0 := rfl
  unfold shrink
  refine ⟨hA1, ?_, ?_, ?_⟩
  · rw [hA2, hrd, h0, hC]
    omega
  · rw [hA3, hct, ofSize_readableContent, List.nil_append]
    rfl
  · rw [hA4, ensure_noop _ _ (by rw [hC]; omega), ensure_ofSize_length]

/-- Invariant preservation by `retrieve` (for any argument: below the readable
length the cursor stays below the writer, otherwise `retrieveAll` resets into
the cheap-prepend reserve, which the strengthened invariant covers). -/
theorem retrieve_strongInv (b : Buffer) (len : Nat) (h : StrongInv b) :
    StrongInv (b.retrieve len) := by
  obtain ⟨h8, hrw, hwl⟩ := h
  unfold retrieve retrieveAll
  split_ifs with hc
  · simp only [readableBytes] at hc
    simp only [StrongInv, I1, kCheapPrepend] at h8 ⊢
    omega
  · simp only [StrongInv, I1, kCheapPrepend] at h8 ⊢
    omega

/-- Invariant preservation by `prepend` under its asserted precondition. -/
theorem prepend_strongInv (b : Buffer) (d : List Nat) (h : StrongInv b)
    (hp : d.length ≤ b.prependableBytes) : StrongInv (b.prepend d) := by
  obtain ⟨h8, hrw, hwl⟩ := h
  obtain ⟨hr, hw, hl, _, _, _⟩ := prepend_spec b d ⟨hrw, hwl⟩ hp
  simp only [prependableBytes] at hp
  simp only [StrongInv, I1, hr, hw, hl]
  refine ⟨h8, by omega, hwl⟩

/-- On a buffer with no readable content, the first `data.length` bytes at
`peek()` after `append(data)` are the appended data. -/
theorem append_empty_peek (b : Buffer) (d : List Nat) (h : StrongInv b)
    (h0 : b.readableBytes = 0) : (b.append d).peekBytes d.length = d := by
  obtain ⟨hA1, hA2, hA3, hA4⟩ := append_spec b d h
  have h1 : (b.append d).readableBytes = d.length := by rw [hA2, h0, Nat.zero_add]
  have h2 : b.readableContent = [] := by
    have hl := length_readableContent b h.2
    rw [h0] at hl
    exact List.length_eq_zero.mp hl
  calc (b.append d).peekBytes d.length
      = (b.append d).peekBytes ((b.append d).readableBytes) := by rw [h1]
    _ = (b.append d).readableContent := rfl
    _ = b.readableContent ++ d := hA3
    _ = d := by rw [h2, List.nil_append]

/-- Effect of `retrieve` on the readable length under its asserted
precondition: it shrinks by exactly `len` (the `retrieveAll` reset case is the
`len == readableBytes()` case, where the new length is `0 = len - len`). -/
theorem retrieve_readableBytes (b : Buffer) (len : Nat) (h : len ≤ b.readableBytes) :
    (b.retrieve len).readableBytes = b.readableBytes - len := by
  unfold retrieve retrieveAll
  split_ifs with hc <;> simp only [readableBytes] at * <;> omega

/-- Invariant preservation by `retrieveAll`. -/
theorem retrieveAll_strongInv (b : Buffer) (h : StrongInv b) :
    StrongInv (b.retrieveAll) := by
  obtain ⟨h8, _, _⟩ := h
  exact ⟨h8, le_refl _, h8⟩

/-- Invariant preservation by `hasWritten` under its asserted precondition. -/
theorem hasWritten_strongInv (b : Buffer) (len : Nat) (h : StrongInv b)
    (hlen : len ≤ b.writableBytes) : StrongInv (b.hasWritten len) := by
  obtain ⟨h8, hrw, hwl⟩ := h
  simp only [writableBytes] at hlen
  exact ⟨h8, by simp only [I1, hasWritten]; omega⟩

/-- Invariant preservation by `unwrite` under its asserted precondition. -/
theorem unwrite_strongInv (b : Buffer) (len : Nat) (h : StrongInv b)
    (hlen : len ≤ b.readableBytes) : StrongInv (b.unwrite len) := by
  obtain ⟨h8, hrw, hwl⟩ := h
  simp only [readableBytes] at hlen
  exact ⟨h8, by simp only [I1, unwrite]; omega⟩

end Buffer

/-- Every public call of the class, invoked with its stated precondition,
preserves the strengthened invariant. -/
theorem applyOp_strongInv (b : Buffer) (op : Op) (h : Buffer.StrongInv b)
    (hv : validOp b op = true) : Buffer.StrongInv (applyOp b op) := by
  cases op with
  | append d => exact (Buffer.append_spec b d h).1
  | appendInt8 x => exact (Buffer.append_spec b (toBytesLE 1 x) h).1
  | appendInt16 x => exact (Buffer.append_spec b (toBytesLE 2 x) h).1
  | appendInt32 x => exact (Buffer.append_spec b (toBytesLE 4 x) h).1
  | appendInt64 x => exact (Buffer.append_spec b (toBytesLE 8 x) h).1
  | prepend d => exact Buffer.prepend_strongInv b d h (of_decide_eq_true hv)
  | prependInt8 x =>
    exact Buffer.prepend_strongInv b (toBytesLE 1 x) h
      (by rw [length_toBytesLE]; exact of_decide_eq_true hv)
  | prependInt16 x =>
    exact Buffer.prepend_strongInv b (toBytesLE 2 x) h
      (by rw [length_toBytesLE]; exact of_decide_eq_true hv)
  | prependInt32 x =>
    exact Buffer.prepend_strongInv b (toBytesLE 4 x) h
      (by rw [length_toBytesLE]; exact of_decide_eq_true hv)
  | retrieve len => exact Buffer.retrieve_strongInv b len h
  | retrieveInt8 => exact Buffer.retrieve_strongInv b 1 h
  | retrieveInt16 => exact Buffer.retrieve_strongInv b 2 h
  | retrieveInt32 => exact Buffer.retrieve_strongInv b 4 h
  | retrieveInt64 => exact Buffer.retrieve_strongInv b 8 h
  | retrieveAll => exact Buffer.retrieveAll_strongInv b h
  | retrieveAsString len => exact Buffer.retrieve_strongInv b len h
  | retrieveAllAsString => exact Buffer.retrieve_strongInv b b.readableBytes h
  | retrieveUntil e => exact Buffer.retrieve_strongInv b (e - b.readerIndex_) h
  | hasWritten len => exact Buffer.hasWritten_strongInv b len h (of_decide_eq_true hv)
  | unwrite len => exact Buffer.unwrite_strongInv b len h (of_decide_eq_true hv)
  | ensureWritableBytes len => exact (Buffer.ensure_spec b len h).1
  | makeSpace len => exact (Buffer.makeSpace_spec b len h (of_decide_eq_true hv)).1
  | shrink reserve => exact (Buffer.shrink_spec b reserve h.2).1
  | swap rhs => exact of_decide_eq_true hv

/-- The strengthened invariant holds at the end of every valid call sequence
from a state satisfying it. -/
theorem run_strongInv (ops : List Op) : ∀ b : Buffer, Buffer.StrongInv b →
    validSeq b ops = true → Buffer.StrongInv (run b ops) := by
  induction ops with
  | nil => exact fun b h _ => h
  | cons op rest ih =>
    intro b h hv
    simp only [validSeq, Bool.and_eq_true] at hv
    exact ih (applyOp b op) (applyOp_strongInv b op h hv.1) hv.2

/-- Every reachable state satisfies the strengthened invariant. -/
theorem reachable_strongInv (b : Buffer) (h : Reachable b) : Buffer.StrongInv b := by
  obtain ⟨sz, ops, hv, hrun⟩ := h
  rw [← hrun]
  exact run_strongInv ops (Buffer.ofSize sz) (Buffer.ofSize_strongInv sz) hv

end muduo

/-! The claims. -/

open muduo

/-- C1 (counterexample): the claim quantifies over every state satisfying I1
alone, but on a state whose storage is shorter than `kCheapPrepend` (such a
state satisfies I1 yet is not constructible) `retrieveAll` — which has no
stated precondition — writes both cursors to `kCheapPrepend = 8` and breaks
`writerIndex ≤ storage.length`. -/
theorem claim_C1_counterexample :
    Buffer.I1 (⟨List.replicate 5 0, 2, 2⟩ : Buffer) ∧
      validOp (⟨List.replicate 5 0, 2, 2⟩ : Buffer) Op.retrieveAll = true ∧
      ¬ Buffer.I1 (applyOp (⟨List.replicate 5 0, 2, 2⟩ : Buffer) Op.retrieveAll) := by
  decide

/-- C1 (amended): every operation of the class, invoked with its stated
precondition, preserves the strengthened invariant
`kCheapPrepend ≤ storage.length ∧ 0 ≤ readerIndex ≤ writerIndex ≤
storage.length`, which a freshly constructed buffer satisfies; consequently
`0 ≤ readerIndex ≤ writerIndex ≤ storage.length` holds after every call of
every valid operation sequence starting from a freshly constructed buffer. -/
theorem claim_C1_invariant_preservation :
    (∀ (b : Buffer) (op : Op), Buffer.StrongInv b → validOp b op = true →
      Buffer.StrongInv (applyOp b op)) ∧
    (∀ (sz : Nat) (ops : List Op), validSeq (Buffer.ofSize sz) ops = true →
      Buffer.StrongInv (run (Buffer.ofSize sz) ops) ∧
        Buffer.I1 (run (Buffer.ofSize sz) ops)) := by
  refine ⟨applyOp_strongInv, fun sz ops hv => ?_⟩
  have h := run_strongInv ops (Buffer.ofSize sz) (Buffer.ofSize_strongInv sz) hv
  exact ⟨h, h.2⟩

/-- C1 (witness): a concrete valid sequence from a fresh buffer, with the
invariant checked at its end. -/
theorem claim_C1_witness :
    Buffer.StrongInv (run (Buffer.ofSize 4) [Op.append [1, 2, 3], Op.retrieve 1]) ∧
      Buffer.I1 (run (Buffer.ofSize 4) [Op.append [1, 2, 3], Op.retrieve 1]) :=
  claim_C1_invariant_preservation.2 4 [Op.append [1, 2, 3], Op.retrieve 1] (by decide)

/-- C2 (counterexample): on the reachable state built by `append [1,2,3,4]`
then `retrieve 1` on a fresh `Buffer(4)`, `ensureWritableBytes 1` takes the
compaction branch; offset 9 lay in the readable region (value 2) but
afterwards holds 3, so readable bytes are not preserved at the same storage
offsets. -/
theorem claim_C2_counterexample :
    Reachable (run (Buffer.ofSize 4) [Op.append [1, 2, 3, 4], Op.retrieve 1]) ∧
      (run (Buffer.ofSize 4) [Op.append [1, 2, 3, 4], Op.retrieve 1]).readerIndex_ ≤ 9 ∧
      9 < (run (Buffer.ofSize 4) [Op.append [1, 2, 3, 4], Op.retrieve 1]).writerIndex_ ∧
      ((run (Buffer.ofSize 4) [Op.append [1, 2, 3, 4],
          Op.retrieve 1]).ensureWritableBytes 1).buffer_[9]?
        ≠ (run (Buffer.ofSize 4) [Op.append [1, 2, 3, 4], Op.retrieve 1]).buffer_[9]? :=
  ⟨⟨4, [Op.append [1, 2, 3, 4], Op.retrieve 1], rfl, rfl⟩, by decide, by decide, by decide⟩

/-- C2 (amended): for every reachable state and every `n`,
`ensureWritableBytes n` establishes `writableBytes() ≥ n`, and the previously
readable bytes are preserved in value and in position within the readable
region — the readable content is the same byte sequence of the same length —
though the compaction branch moves them to lower storage offsets. -/
theorem claim_C2_growth_transparency (b : Buffer) (n : Nat) (h : Reachable b) :
    n ≤ (b.ensureWritableBytes n).writableBytes ∧
      (b.ensureWritableBytes n).readableContent = b.readableContent ∧
      (b.ensureWritableBytes n).readableBytes = b.readableBytes := by
  obtain ⟨hI, hw, hr, hc⟩ := Buffer.ensure_spec b n (reachable_strongInv b h)
  exact ⟨hw, hc, hr⟩

/-- C2 (witness): growth transparency at a concrete reachable state. -/
theorem claim_C2_witness :
    2 ≤ ((Buffer.ofSize 4).ensureWritableBytes 2).writableBytes ∧
      ((Buffer.ofSize 4).ensureWritableBytes 2).readableContent
        = (Buffer.ofSize 4).readableContent ∧
      ((Buffer.ofSize 4).ensureWritableBytes 2).readableBytes
        = (Buffer.ofSize 4).readableBytes :=
  claim_C2_growth_transparency (Buffer.ofSize 4) 2 ⟨4, [], rfl, rfl⟩

/-- C3: `makeSpace len`, invoked on shortfall (`writableBytes() < len`) in a
state satisfying I1: if `writableBytes + prependableBytes < len +
kCheapPrepend` it resizes the storage to at least `writerIndex + len` bytes
leaving both cursors and all existing bytes in place; otherwise it keeps the
storage length (no allocation), copies the readable region down to
`kCheapPrepend`, sets `readerIndex = kCheapPrepend` and `writerIndex =
kCheapPrepend + old readableBytes`, and the readable content and
`readableBytes()` are unchanged. -/
theorem claim_C3_makeSpace_branches (b : Buffer) (len : Nat) (h : Buffer.I1 b)
    (hs : b.writableBytes < len) :
    (b.writableBytes + b.prependableBytes < len + Buffer.kCheapPrepend →
      b.writerIndex_ + len ≤ (b.makeSpace len).buffer_.length ∧
        (b.makeSpace len).readerIndex_ = b.readerIndex_ ∧
        (b.makeSpace len).writerIndex_ = b.writerIndex_ ∧
        ∀ j, j < b.buffer_.length →
          (b.makeSpace len).buffer_[j]? = b.buffer_[j]?) ∧
    (¬ (b.writableBytes + b.prependableBytes < len + Buffer.kCheapPrepend) →
      (b.makeSpace len).buffer_.length = b.buffer_.length ∧
        (b.makeSpace len).readerIndex_ = Buffer.kCheapPrepend ∧
        (b.makeSpace len).writerIndex_ = Buffer.kCheapPrepend + b.readableBytes ∧
        (b.makeSpace len).readableContent = b.readableContent ∧
        (b.makeSpace len).readableBytes = b.readableBytes) := by
  obtain ⟨hrw, hwl⟩ := h
  simp only [Buffer.writableBytes, Buffer.prependableBytes] at hs ⊢
  constructor
  · intro hcond
    unfold Buffer.makeSpace
    rw [if_pos (by simp only [Buffer.writableBytes, Buffer.prependableBytes]; exact hcond)]
    have hlen : (resize b.buffer_ (b.writerIndex_ + len)).length = b.writerIndex_ + len :=
      length_resize _ _
    refine ⟨by simp only [hlen]; omega, rfl, rfl, fun j hj => ?_⟩
    exact getElem?_resize_of_grow _ _ _ (by omega) hj
  · intro hcond
    unfold Buffer.makeSpace
    rw [if_neg (by simp only [Buffer.writableBytes, Buffer.prependableBytes]; exact hcond)]
    have hClen : (b.peekBytes b.readableBytes).length = b.readableBytes :=
      Buffer.length_peekBytes _ _ (by simp only [Buffer.readableBytes]; omega)
    have hfit : Buffer.kCheapPrepend + (b.peekBytes b.readableBytes).length
        ≤ b.buffer_.length := by
      rw [hClen]
      simp only [Buffer.readableBytes, Buffer.kCheapPrepend] at *
      omega
    have hwlen := length_writeAt b.buffer_ (b.peekBytes b.readableBytes)
      Buffer.kCheapPrepend hfit
    have hslice := take_drop_writeAt b.buffer_ (b.peekBytes b.readableBytes)
      Buffer.kCheapPrepend hfit
    rw [hClen] at hslice
    refine ⟨hwlen, rfl, rfl, ?_, ?_⟩
    · show ((writeAt b.buffer_ Buffer.kCheapPrepend
          (b.peekBytes b.readableBytes)).drop Buffer.kCheapPrepend).take
            (Buffer.kCheapPrepend + b.readableBytes - Buffer.kCheapPrepend)
        = b.readableContent
      rw [show Buffer.kCheapPrepend + b.readableBytes - Buffer.kCheapPrepend
          = b.readableBytes from by omega]
      exact hslice
    · show Buffer.kCheapPrepend + b.readableBytes - Buffer.kCheapPrepend = b.readableBytes
      omega

/-- C3 (witness): the compaction branch exercised on a concrete state. -/
theorem claim_C3_witness :
    ((⟨[0, 0, 0, 0, 0, 0, 0, 0, 1, 2, 3, 4], 9, 12⟩ : Buffer).makeSpace 1).readableContent
      = (⟨[0, 0, 0, 0, 0, 0, 0, 0, 1, 2, 3, 4], 9, 12⟩ : Buffer).readableContent :=
  ((claim_C3_makeSpace_branches _ 1 (by decide) (by decide)).2 (by decide)).2.2.2.1

/-- C4 (counterexample): on a reachable state that already holds readable
content (here the byte 1), `append [2]` followed by `retrieveAsString 1`
returns the oldest readable byte `[1]`, not the appended `[2]`:
`retrieveAsString` reads from the front of the readable region. -/
theorem claim_C4_counterexample :
    Reachable (run (Buffer.ofSize 4) [Op.append [1]]) ∧
      (((run (Buffer.ofSize 4) [Op.append [1]]).append [2]).retrieveAsString 1).1 ≠ [2] :=
  ⟨⟨4, [Op.append [1]], rfl, rfl⟩, by decide⟩

/-- C4 (amended): for every reachable state whose readable region is empty and
every byte sequence `d`, `append d` followed by `retrieveAsString d.length`
returns exactly `d` (and the length argument meets `retrieveAsString`'s
precondition, the readable length after the append being `d.length`). -/
theorem claim_C4_append_retrieve_roundtrip (b : Buffer) (d : List Nat)
    (h : Reachable b) (h0 : b.readableBytes = 0) :
    ((b.append d).retrieveAsString d.length).1 = d ∧
      (b.append d).readableBytes = d.length := by
  have hS := reachable_strongInv b h
  refine ⟨Buffer.append_empty_peek b d hS h0, ?_⟩
  rw [(Buffer.append_spec b d hS).2.1, h0, Nat.zero_add]

/-- C4 (witness): the round-trip at a concrete fresh buffer. -/
theorem claim_C4_witness :
    (((Buffer.ofSize 4).append [7, 8]).retrieveAsString 2).1 = [7, 8] ∧
      ((Buffer.ofSize 4).append [7, 8]).readableBytes = 2 :=
  claim_C4_append_retrieve_roundtrip (Buffer.ofSize 4) [7, 8] ⟨4, [], rfl, rfl⟩ rfl

/-- C5 (counterexample): the peek round-trip fails on a reachable state that
already holds readable content: after `appendInt8 1` then `appendInt8 2`,
`peekInt8` returns the front byte 1, not the appended 2. -/
theorem claim_C5_counterexample :
    Reachable (run (Buffer.ofSize 4) [Op.appendInt8 1]) ∧
      ((run (Buffer.ofSize 4) [Op.appendInt8 1]).appendInt8 2).peekInt8 ≠ 2 :=
  ⟨⟨4, [Op.appendInt8 1], rfl, rfl⟩, by decide⟩

/-- C5 (amended): for `N ∈ {8,16,32,64}` and every `N`-bit value `x` (as its
bit pattern `x < 2^N`), on a reachable state with empty readable region
`appendIntN x` followed by `peekIntN` returns `x` (`peekIntN` is a pure
function of the state, so it moves no cursor; `peekInt64` is modelled from the
spec, the class shipping none); and on any state with `readableBytes ≥ N/8`,
`retrieveIntN` decreases `readableBytes()` by exactly `N/8`. -/
theorem claim_C5_integer_roundtrip :
    (∀ (b : Buffer) (x : Nat), Reachable b → b.readableBytes = 0 → x < 2 ^ 8 →
      (b.appendInt8 x).peekInt8 = x) ∧
    (∀ (b : Buffer) (x : Nat), Reachable b → b.readableBytes = 0 → x < 2 ^ 16 →
      (b.appendInt16 x).peekInt16 = x) ∧
    (∀ (b : Buffer) (x : Nat), Reachable b → b.readableBytes = 0 → x < 2 ^ 32 →
      (b.appendInt32 x).peekInt32 = x) ∧
    (∀ (b : Buffer) (x : Nat), Reachable b → b.readableBytes = 0 → x < 2 ^ 64 →
      (b.appendInt64 x).peekInt64 = x) ∧
    (∀ b : Buffer, 1 ≤ b.readableBytes →
      (b.retrieveInt8).readableBytes = b.readableBytes - 1) ∧
    (∀ b : Buffer, 2 ≤ b.readableBytes →
      (b.retrieveInt16).readableBytes = b.readableBytes - 2) ∧
    (∀ b : Buffer, 4 ≤ b.readableBytes →
      (b.retrieveInt32).readableBytes = b.readableBytes - 4) ∧
    (∀ b : Buffer, 8 ≤ b.readableBytes →
      (b.retrieveInt64).readableBytes = b.readableBytes - 8) := by
  have key : ∀ (b : Buffer) (w x : Nat), Reachable b → b.readableBytes = 0 →
      x < 256 ^ w → fromBytesLE ((b.append (toBytesLE w x)).peekBytes w) = x := by
    intro b w x h h0 hx
    have hp := Buffer.append_empty_peek b (toBytesLE w x) (reachable_strongInv b h) h0
    rw [length_toBytesLE] at hp
    rw [hp, fromBytesLE_toBytesLE, Nat.mod_eq_of_lt hx]
  refine ⟨fun b x h h0 hx => key b 1 x h h0 (by norm_num at hx ⊢; omega),
    fun b x h h0 hx => key b 2 x h h0 (by norm_num at hx ⊢; omega),
    fun b x h h0 hx => key b 4 x h h0 (by norm_num at hx ⊢; omega),
    fun b x h h0 hx => key b 8 x h h0 (by norm_num at hx ⊢; omega),
    fun b h => Buffer.retrieve_readableBytes b 1 h,
    fun b h => Buffer.retrieve_readableBytes b 2 h,
    fun b h => Buffer.retrieve_readableBytes b 4 h,
    fun b h => Buffer.retrieve_readableBytes b 8 h⟩

/-- C5 (witness): the 8-bit round-trip and the retrieve decrement at concrete
inputs. -/
theorem claim_C5_witness :
    ((Buffer.ofSize 4).appendInt8 7).peekInt8 = 7 ∧
      (((Buffer.ofSize 4).appendInt8 7).retrieveInt8).readableBytes
        = ((Buffer.ofSize 4).appendInt8 7).readableBytes - 1 :=
  ⟨claim_C5_integer_roundtrip.1 (Buffer.ofSize 4) 7 ⟨4, [], rfl, rfl⟩ rfl (by decide),
    claim_C5_integer_roundtrip.2.2.2.2.1 ((Buffer.ofSize 4).appendInt8 7) (by decide)⟩

/-- C6: for `len ≤ readableBytes()`: when `len < readableBytes()`, `retrieve
len` advances the reader cursor by exactly `len` and changes nothing else
(storage and writer cursor identical); when `len = readableBytes()`, it equals
`retrieveAll`, resetting both cursors to `kCheapPrepend`, after which
`readableBytes() = 0` and `prependableBytes() = kCheapPrepend`. -/
theorem claim_C6_retrieve_semantics (b : Buffer) (len : Nat)
    (h : len ≤ b.readableBytes) :
    (len < b.readableBytes →
      b.retrieve len = ⟨b.buffer_, b.readerIndex_ + len, b.writerIndex_⟩) ∧
    (len = b.readableBytes →
      b.retrieve len = b.retrieveAll ∧
        b.retrieve len = ⟨b.buffer_, Buffer.kCheapPrepend, Buffer.kCheapPrepend⟩ ∧
        (b.retrieve len).readableBytes = 0 ∧
        (b.retrieve len).prependableBytes = Buffer.kCheapPrepend) := by
  constructor
  · intro hlt
    unfold Buffer.retrieve
    rw [if_pos hlt]
  · intro heq
    unfold Buffer.retrieve
    rw [if_neg (by omega)]
    exact ⟨rfl, rfl, rfl, rfl⟩

/-- C6 (witness): both branches exercised on a concrete buffer with 4 readable
bytes. -/
theorem claim_C6_witness :
    (⟨List.replicate 12 0, 8, 12⟩ : Buffer).retrieve 2
        = ⟨List.replicate 12 0, 8 + 2, 12⟩ ∧
      ((⟨List.replicate 12 0, 8, 12⟩ : Buffer).retrieve 4).readableBytes = 0 :=
  ⟨(claim_C6_retrieve_semantics (⟨List.replicate 12 0, 8, 12⟩ : Buffer) 2
      (by decide)).1 (by decide),
    ((claim_C6_retrieve_semantics (⟨List.replicate 12 0, 8, 12⟩ : Buffer) 4
      (by decide)).2 (by decide)).2.2.1⟩

/-- C7: for a buffer satisfying I1 with readable content `C` and at least
`hd.length` prependable bytes, `prepend hd` moves the reader cursor back by
`hd.length`, keeps the writer cursor, makes the readable content exactly
`hd ++ C`, and modifies no byte of `C` in place. -/
theorem claim_C7_prepend_correctness (b : Buffer) (hd : List Nat) (hI : Buffer.I1 b)
    (hp : hd.length ≤ b.prependableBytes) :
    (b.prepend hd).readerIndex_ = b.readerIndex_ - hd.length ∧
      (b.prepend hd).writerIndex_ = b.writerIndex_ ∧
      (b.prepend hd).readableContent = hd ++ b.readableContent ∧
      ∀ j, b.readerIndex_ ≤ j → j < b.writerIndex_ →
        (b.prepend hd).buffer_[j]? = b.buffer_[j]? := by
  obtain ⟨h1, h2, h3, h4, h5, h6⟩ := Buffer.prepend_spec b hd hI hp
  exact ⟨h1, h2, h5, fun j hj _ => h6 j hj⟩

/-- C7 (witness): a one-byte header prepended before two readable bytes. -/
theorem claim_C7_witness :
    ((⟨[0, 0, 0, 0, 0, 0, 0, 0, 1, 2], 8, 10⟩ : Buffer).prepend [9]).readableContent
      = [9] ++ (⟨[0, 0, 0, 0, 0, 0, 0, 0, 1, 2], 8, 10⟩ : Buffer).readableContent :=
  (claim_C7_prepend_correctness (⟨[0, 0, 0, 0, 0, 0, 0, 0, 1, 2], 8, 10⟩ : Buffer) [9]
    (by decide) (by decide)).2.2.1

set_option maxRecDepth 40000 in
/-- C8: `prependIntN x` prepends the `N/8`-byte fixed-width image of `x` via
`prepend`, growing `readableBytes()` by `N/8` (under I1 and the prepend
precondition); in particular on a fresh default buffer after
`append "hello"`, `prependInt32 5` yields `readableBytes() = 9`, the first 4
readable bytes decode to 5, and the remaining 5 bytes are `"hello"`. -/
theorem claim_C8_prependInt :
    (∀ (b : Buffer) (x : Nat), Buffer.I1 b → 1 ≤ b.prependableBytes →
      (b.prependInt8 x).readableBytes = b.readableBytes + 1) ∧
    (∀ (b : Buffer) (x : Nat), Buffer.I1 b → 2 ≤ b.prependableBytes →
      (b.prependInt16 x).readableBytes = b.readableBytes + 2) ∧
    (∀ (b : Buffer) (x : Nat), Buffer.I1 b → 4 ≤ b.prependableBytes →
      (b.prependInt32 x).readableBytes = b.readableBytes + 4) ∧
    (((Buffer.ofSize Buffer.kInitialSize).append
        [104, 101, 108, 108, 111]).prependInt32 5).readableBytes = 9 ∧
    (((Buffer.ofSize Buffer.kInitialSize).append
        [104, 101, 108, 108, 111]).prependInt32 5).peekInt32 = 5 ∧
    (((Buffer.ofSize Buffer.kInitialSize).append
        [104, 101, 108, 108, 111]).prependInt32 5).readableContent
      = toBytesLE 4 5 ++ [104, 101, 108, 108, 111] := by
  refine ⟨?_, ?_, ?_, by decide, by decide, by decide⟩
  · intro b x hI hp
    have h := (Buffer.prepend_spec b (toBytesLE 1 x) hI
      (by rw [length_toBytesLE]; exact hp)).2.2.2.1
    rw [length_toBytesLE] at h
    exact h
  · intro b x hI hp
    have h := (Buffer.prepend_spec b (toBytesLE 2 x) hI
      (by rw [length_toBytesLE]; exact hp)).2.2.2.1
    rw [length_toBytesLE] at h
    exact h
  · intro b x hI hp
    have h := (Buffer.prepend_spec b (toBytesLE 4 x) hI
      (by rw [length_toBytesLE]; exact hp)).2.2.2.1
    rw [length_toBytesLE] at h
    exact h

/-- C8 (witness): the general wrapper applied at a concrete state. -/
theorem claim_C8_witness :
    ((⟨[0, 0, 0, 0, 0, 0, 0, 0, 1, 2], 8, 10⟩ : Buffer).prependInt32 5).readableBytes
      = (⟨[0, 0, 0, 0, 0, 0, 0, 0, 1, 2], 8, 10⟩ : Buffer).readableBytes + 4 :=
  claim_C8_prependInt.2.2.1 (⟨[0, 0, 0, 0, 0, 0, 0, 0, 1, 2], 8, 10⟩ : Buffer) 5
    (by decide) (by decide)

set_option maxRecDepth 40000 in
/-- C9 (counterexample): `shrink` does not size the storage to exactly
`readableBytes() + reserve` (plus the cheap-prepend region): with 5 readable
bytes and reserve 0 on a reachable state the resulting storage is the fresh
default allocation `kCheapPrepend + kInitialSize = 1032`, not `13` — the
fresh buffer it swaps with starts at `kInitialSize` and
`ensureWritableBytes` never shrinks. -/
theorem claim_C9_counterexample :
    Reachable (run (Buffer.ofSize Buffer.kInitialSize)
        [Op.append [104, 101, 108, 108, 111]]) ∧
      ((run (Buffer.ofSize Buffer.kInitialSize)
          [Op.append [104, 101, 108, 108, 111]]).shrink 0).buffer_.length
        ≠ Buffer.kCheapPrepend +
            ((run (Buffer.ofSize Buffer.kInitialSize)
              [Op.append [104, 101, 108, 108, 111]]).readableBytes + 0) :=
  ⟨⟨Buffer.kInitialSize, [Op.append [104, 101, 108, 108, 111]], rfl, rfl⟩, by decide⟩

/-- C9 (amended): `shrink reserve` leaves the buffer observably equivalent
(readable content and length unchanged) and resizes the storage to
`kCheapPrepend + kInitialSize` when `readableBytes() + reserve` fits the
default initial capacity — the fresh swap partner's allocation, which
`ensureWritableBytes` does not shrink — and to exactly
`kCheapPrepend + readableBytes() + reserve` otherwise. -/
theorem claim_C9_shrink (b : Buffer) (reserve : Nat) (h : Buffer.I1 b) :
    (b.shrink reserve).readableContent = b.readableContent ∧
      (b.shrink reserve).readableBytes = b.readableBytes ∧
      (b.shrink reserve).buffer_.length =
        (if b.readableBytes + reserve ≤ Buffer.kInitialSize
         then Buffer.kCheapPrepend + Buffer.kInitialSize
         else Buffer.kCheapPrepend + (b.readableBytes + reserve)) := by
  obtain ⟨h1, h2, h3, h4⟩ := Buffer.shrink_spec b reserve h
  exact ⟨h3, h2, h4⟩

/-- C9 (witness): equivalence and the storage size at a concrete state. -/
theorem claim_C9_witness :
    ((⟨[0, 0, 0, 0, 0, 0, 0, 0, 1, 2], 8, 10⟩ : Buffer).shrink 0).readableContent
        = (⟨[0, 0, 0, 0, 0, 0, 0, 0, 1, 2], 8, 10⟩ : Buffer).readableContent ∧
      ((⟨[0, 0, 0, 0, 0, 0, 0, 0, 1, 2], 8, 10⟩ : Buffer).shrink 0).readableBytes
        = (⟨[0, 0, 0, 0, 0, 0, 0, 0, 1, 2], 8, 10⟩ : Buffer).readableBytes ∧
      ((⟨[0, 0, 0, 0, 0, 0, 0, 0, 1, 2], 8, 10⟩ : Buffer).shrink 0).buffer_.length =
        (if (⟨[0, 0, 0, 0, 0, 0, 0, 0, 1, 2], 8, 10⟩ : Buffer).readableBytes + 0
            ≤ Buffer.kInitialSize
         then Buffer.kCheapPrepend + Buffer.kInitialSize
         else Buffer.kCheapPrepend +
          ((⟨[0, 0, 0, 0, 0, 0, 0, 0, 1, 2], 8, 10⟩ : Buffer).readableBytes + 0)) :=
  claim_C9_shrink (⟨[0, 0, 0, 0, 0, 0, 0, 0, 1, 2], 8, 10⟩ : Buffer) 0 (by decide)

/-- C10: the assertion `kCheapPrepend < readerIndex_` at the head of
`makeSpace`'s compaction branch is valid: whenever a state satisfies I1,
`makeSpace len` is entered on shortfall (`writableBytes() < len`) and the
compaction branch is selected (`writableBytes() + prependableBytes() ≥ len +
kCheapPrepend`), arithmetic forces `prependableBytes() > kCheapPrepend`,
i.e. `readerIndex_ > kCheapPrepend`. -/
theorem claim_C10_makeSpace_assertion (b : Buffer) (len : Nat) (h : Buffer.I1 b)
    (hs : b.writableBytes < len)
    (hc : ¬ (b.writableBytes + b.prependableBytes < len + Buffer.kCheapPrepend)) :
    Buffer.kCheapPrepend < b.prependableBytes ∧
      Buffer.kCheapPrepend < b.readerIndex_ := by
  obtain ⟨h1, h2⟩ := h
  simp only [Buffer.writableBytes, Buffer.prependableBytes] at hs hc ⊢
  omega

/-- C10 (witness): a concrete state entering the compaction branch. -/
theorem claim_C10_witness :
    Buffer.kCheapPrepend < (⟨List.replicate 12 0, 10, 12⟩ : Buffer).prependableBytes ∧
      Buffer.kCheapPrepend < (⟨List.replicate 12 0, 10, 12⟩ : Buffer).readerIndex_ :=
  claim_C10_makeSpace_assertion (⟨List.replicate 12 0, 10, 12⟩ : Buffer) 1
    (by decide) (by decide) (by decide)
